import Mathlib

/-!
Verification of the literal-parsing library (byte-string and bool literal
parsers) against its specification.

The embedding works over `List Nat`, each element a byte value of the input
span (`&str` / `String` buffers are byte sequences; `b` = 98, `r` = 114,
`"` = 34, `#` = 35, `\` = 92, CR = 13, LF = 10).  Machine indices become
`Nat`; fallible slice indexing is modelled with `List.get?`, and a distinct
`panic` outcome stands for an out-of-bounds byte access, a str range index
whose bound is not a UTF-8 char boundary, or an exhausted loop-fuel counter,
so that totality of the parser is a statement to be settled against the code
rather than an artifact of the embedding.  The `num_hashes as u32` cast of
the source is kept as a reduction modulo 2^32.
-/

/-- Error position: none, a single byte offset, or a half-open byte range,
relative to the original input span. -/
inductive Pos where
  | none : Pos
  | single (i : Nat) : Pos
  | span (lo hi : Nat) : Pos
  deriving DecidableEq, Repr

/-- Error discriminants used by the bool and byte-string parsers (a subset of
the crate's closed error taxonomy). -/
inductive ErrorKind where
  | Empty
  | InvalidByteStringLiteralStart
  | InvalidLiteral
  | NonAsciiInByteLiteral
  | UnterminatedRawString
  | UnexpectedChar
  | IsolatedCr
  | UnterminatedString
  | UnknownEscape
  | UnterminatedEscape
  | InvalidXEscape
  deriving DecidableEq, Repr

/-- An error: a position plus a discriminant, as built by `perr`. -/
structure Error where
  pos : Pos
  kind : ErrorKind
  deriving DecidableEq, Repr

/-- Outcome of a parse: success, an error, or a fault (out-of-bounds slice
access / loop-fuel exhaustion).  `panic` is proved unreachable for the public
entry points. -/
inductive ParseOutcome (α : Type) where
  | ok (val : α) : ParseOutcome α
  | err (e : Error) : ParseOutcome α
  | panic : ParseOutcome α
  deriving DecidableEq, Repr

/-- A bool literal: `true` or `false` (src/bool/mod.rs). -/
inductive BoolLit where
  | False
  | True
  deriving DecidableEq, Repr

/-- Embedding of `BoolLit::parse` (src/bool/mod.rs): exact match against `false` / `true`,
anything else is `InvalidLiteral` with no position. -/
def BoolLit.parse (s : String) : ParseOutcome BoolLit :=
  if s = "false" then .ok BoolLit.False
  else if s = "true" then .ok BoolLit.True
  else .err ⟨Pos.none, ErrorKind.InvalidLiteral⟩

/-- Value of a hex digit byte, mirroring `char::to_digit(16)`. -/
def hexDigitVal (b : Nat) : Option Nat :=
  if 48 ≤ b ∧ b ≤ 57 then Option.some (b - 48)
  else if 97 ≤ b ∧ b ≤ 102 then Option.some (b - 97 + 10)
  else if 65 ≤ b ∧ b ≤ 70 then Option.some (b - 65 + 10)
  else Option.none

/-- Modelled from the spec: the byte-context escape decoder `unescape::<u8>`
from `crate::escape`, whose source file is not part of this repository
snapshot (src only contains its caller in src/bytestr/mod.rs).  Following
spec section 4.3: the argument is the slice of the input starting at the
backslash and stopping before the final byte, with `offset` the absolute
position of the backslash; the result is the decoded byte together with the
number of input bytes the escape consumed.  Single-letter escapes `n t r 0 \
' "` map to fixed bytes; `\xHH` with two hex digits yields that byte value
(byte context imposes no 0x7F bound); malformed digits fail as
`InvalidXEscape` over the four escape bytes, truncated input fails as
`UnterminatedEscape` over the remaining bytes; any other letter (including
`u`, illegal in byte context) fails as `UnknownEscape` over backslash and
letter; a bare trailing backslash fails as `UnterminatedString` with no
position. -/
def unescapeByte (s : List Nat) (offset : Nat) : Except Error (Nat × Nat) :=
  match s with
  | [] => .error ⟨Pos.none, ErrorKind.UnterminatedString⟩
  | [_] => .error ⟨Pos.none, ErrorKind.UnterminatedString⟩
  | _ :: c :: rest =>
    if c = 110 then .ok (10, 2)
    else if c = 116 then .ok (9, 2)
    else if c = 114 then .ok (13, 2)
    else if c = 48 then .ok (0, 2)
    else if c = 92 then .ok (92, 2)
    else if c = 39 then .ok (39, 2)
    else if c = 34 then .ok (34, 2)
    else if c = 120 then
      match rest with
      | d1 :: d2 :: _ =>
        match hexDigitVal d1, hexDigitVal d2 with
        | Option.some h1, Option.some h2 => .ok (16 * h1 + h2, 4)
        | _, _ => .error ⟨Pos.span offset (offset + 4), ErrorKind.InvalidXEscape⟩
      | _ => .error ⟨Pos.span offset (offset + s.length), ErrorKind.UnterminatedEscape⟩
    else .error ⟨Pos.span offset (offset + 2), ErrorKind.UnknownEscape⟩

/-- A byte string or raw byte string literal (src/bytestr/mod.rs): the raw
input span, the unescaped value (`none` when no escape occurred), and the
number of hash signs for a raw literal (`none` otherwise). -/
structure ByteStringLit where
  raw : List Nat
  value : Option (List Nat)
  num_hashes : Option Nat
  deriving DecidableEq, Repr

/-- Embedding of `input[2..].bytes().position(|b| b != b'#')`: index of the first byte that
is not a hash sign. -/
def positionNotHash : List Nat → Option Nat
  | [] => Option.none
  | b :: rest => if b ≠ 35 then Option.some 0 else (positionNotHash rest).map (· + 1)

/-- Embedding of `str::is_char_boundary`: an index is a char boundary when it
is 0 or the length of the buffer, or the byte at it is not a UTF-8
continuation byte (a value in 0x80..0xBF); an index past the end is not a
boundary. -/
def isCharBoundary (input : List Nat) (k : Nat) : Bool :=
  if k = 0 then true
  else if k = input.length then true
  else
    match input[k]? with
    | Option.none => false
    | Option.some b => decide (¬ (128 ≤ b ∧ b < 192))

/-- The scan loop of the raw branch of `ByteStringLit::parse_impl`
(src/bytestr/mod.rs lines 82-92): walk `l = input[start_inner + i ..]`; a byte
is the closing quote when it is `"` and `hashes` is a prefix of what follows
it; a non-ASCII byte fails with `NonAsciiInByteLiteral` at its offset; the
result is the absolute position of the closing quote, if found. -/
def rawFindClose (input hashes : List Nat) (start_inner : Nat) :
    Nat → List Nat → Except Error (Option Nat)
  | _, [] => .ok Option.none
  | i, b :: rest =>
    if b = 34 ∧ hashes.isPrefixOf (input.drop (start_inner + i + 1)) then
      .ok (Option.some (start_inner + i))
    else if ¬ b < 128 then
      .error ⟨Pos.single (start_inner + i), ErrorKind.NonAsciiInByteLiteral⟩
    else
      rawFindClose input hashes start_inner (i + 1) rest

/-- The scan loop of the escaped branch of `ByteStringLit::parse_impl`
(src/bytestr/mod.rs lines 105-125): `while i < input.len() - 1`, dispatching
on `input.as_bytes()[i]`: backslash runs the escape decoder over
`input[i .. len-1]` and appends the pending verbatim run plus the decoded
byte; the escape slice is a str range index, so both of its bounds must be
char boundaries, else the program panics (the end bound `len - 1` need not be
one when the final bytes are a multi-byte character); a carriage return not
followed by a line feed fails as `IsolatedCr`; a
bare quote fails as `UnexpectedChar` from just after it to the end; a
non-ASCII byte fails as `NonAsciiInByteLiteral`; anything else advances by
one.  The loop is driven by a fuel counter (the caller passes `input.length`,
proved sufficient); running out of fuel or indexing out of bounds yields
`panic`.  On normal exit it returns the accumulated value together with
`end_last_escape`. -/
def escLoop (input : List Nat) :
    Nat → Nat → Nat → List Nat → ParseOutcome (List Nat × Nat)
  | 0, _, _, _ => .panic
  | fuel + 1, i, end_last_escape, value =>
    if i < input.length - 1 then
      match input[i]? with
      | Option.none => .panic
      | Option.some b =>
        if b = 92 then
          if isCharBoundary input i ∧ isCharBoundary input (input.length - 1) then
            match unescapeByte ((input.drop i).take (input.length - 1 - i)) i with
            | .error e => .err e
            | .ok (c, len) =>
              escLoop input fuel (i + len) (i + len)
                (value ++ (input.drop end_last_escape).take (i - end_last_escape) ++ [c])
          else .panic
        else if b = 13 then
          match input[i + 1]? with
          | Option.none => .panic
          | Option.some b2 =>
            if b2 ≠ 10 then .err ⟨Pos.single i, ErrorKind.IsolatedCr⟩
            else escLoop input fuel (i + 1) end_last_escape value
        else if b = 34 then
          .err ⟨Pos.span (i + 1) input.length, ErrorKind.UnexpectedChar⟩
        else if ¬ b < 128 then
          .err ⟨Pos.single i, ErrorKind.NonAsciiInByteLiteral⟩
        else
          escLoop input fuel (i + 1) end_last_escape value
    else
      .ok (value, end_last_escape)

/-- Embedding of `ByteStringLit::parse_impl` (src/bytestr/mod.rs lines 70-148).  Raw branch
when the input starts with `br`: count the opening hashes, require the
opening quote, locate the closing quote via `rawFindClose`, and require that
the close plus fence reaches the end of the input, else `UnexpectedChar` over
the trailing bytes.  Escaped branch otherwise: run `escLoop` from position 2,
require the final byte to be a quote and the length to exceed 2, and store
the accumulated value (plus the trailing verbatim run) only when an escape
occurred.  The stored hash count goes through the source's `num_hashes as
u32` cast, a silently truncating reduction modulo 2^32; every other use of
the count keeps the untruncated machine-word value. -/
def ByteStringLit.parse_impl (input : List Nat) : ParseOutcome ByteStringLit :=
  if [98, 114].isPrefixOf input then
    match positionNotHash (input.drop 2) with
    | Option.none => .err ⟨Pos.none, ErrorKind.InvalidLiteral⟩
    | Option.some num_hashes =>
      if input[2 + num_hashes]? ≠ Option.some 34 then
        .err ⟨Pos.none, ErrorKind.InvalidLiteral⟩
      else
        match rawFindClose input ((input.drop 2).take num_hashes) (2 + num_hashes + 1) 0
            (input.drop (2 + num_hashes + 1)) with
        | .error e => .err e
        | .ok Option.none => .err ⟨Pos.none, ErrorKind.UnterminatedRawString⟩
        | .ok (Option.some closing_quote_pos) =>
          if closing_quote_pos + num_hashes ≠ input.length - 1 then
            .err ⟨Pos.span (closing_quote_pos + num_hashes + 1) input.length,
                  ErrorKind.UnexpectedChar⟩
          else
            .ok ⟨input, Option.none, Option.some (num_hashes % 4294967296)⟩
  else
    match escLoop input input.length 2 2 [] with
    | .panic => .panic
    | .err e => .err e
    | .ok (value, end_last_escape) =>
      match input[input.length - 1]? with
      | Option.none => .panic
      | Option.some last =>
        if last ≠ 34 ∨ input.length = 2 then
          .err ⟨Pos.none, ErrorKind.UnterminatedString⟩
        else
          .ok ⟨input,
               if value = [] then Option.none
               else Option.some
                 (value ++ (input.drop end_last_escape).take
                   (input.length - 1 - end_last_escape)),
               Option.none⟩

/-- Embedding of `ByteStringLit::parse` (src/bytestr/mod.rs lines 28-37): reject the empty
input with `Empty`, reject inputs starting with neither `b"` nor `br` with
`InvalidByteStringLiteralStart`, then delegate to `parse_impl`. -/
def ByteStringLit.parse (input : List Nat) : ParseOutcome ByteStringLit :=
  if input.isEmpty then .err ⟨Pos.none, ErrorKind.Empty⟩
  else if ¬ [98, 34].isPrefixOf input ∧ ¬ [98, 114].isPrefixOf input then
    .err ⟨Pos.none, ErrorKind.InvalidByteStringLiteralStart⟩
  else ByteStringLit.parse_impl input

/-- Embedding of `ByteStringLit::inner_range` (src/bytestr/mod.rs lines 62-67): the range
within `raw` that excludes the quotes and the potential `r#` framing, as a
pair (start, stop). -/
def ByteStringLit.inner_range (l : ByteStringLit) : Nat × Nat :=
  match l.num_hashes with
  | Option.none => (2, l.raw.length - 1)
  | Option.some n => (2 + n + 1, l.raw.length - n - 1)

/-- Embedding of the accessor `ByteStringLit::value` (src/bytestr/mod.rs lines 41-43):
the decoded buffer when present, else the slice `raw[inner_range]`. -/
def ByteStringLit.valueBytes (l : ByteStringLit) : List Nat :=
  match l.value with
  | Option.some v => v
  | Option.none => (l.raw.drop l.inner_range.1).take (l.inner_range.2 - l.inner_range.1)

/-- Embedding of `ByteStringLit::is_raw_byte_string` (src/bytestr/mod.rs lines 57-59). -/
def ByteStringLit.is_raw_byte_string (l : ByteStringLit) : Bool :=
  l.num_hashes.isSome

/-- Embedding of `ByteStringLit::into_owned` (src/bytestr/mod.rs lines 151-161): copy the
raw buffer into an owned one, keeping `value` and `num_hashes`; on the byte
level the raw contents are unchanged. -/
def ByteStringLit.into_owned (l : ByteStringLit) : ByteStringLit :=
  ⟨l.raw, l.value, l.num_hashes⟩

/-- Follows the spec's words for claim C1, to be compared with `rawFindClose`:
a byte is a candidate close only if it is the quote character and is
immediately followed by exactly `n` fence characters, that is, the `n` bytes
after it are hashes and the byte after those is not a hash; the first such
candidate terminates the interior. -/
def rawFindCloseSpecExact (input : List Nat) (n : Nat) (start_inner : Nat) :
    Nat → List Nat → Except Error (Option Nat)
  | _, [] => .ok Option.none
  | i, b :: rest =>
    if b = 34 ∧ (input.drop (start_inner + i + 1)).take n = List.replicate n 35
        ∧ input[start_inner + i + 1 + n]? ≠ Option.some 35 then
      .ok (Option.some (start_inner + i))
    else if ¬ b < 128 then
      .error ⟨Pos.single (start_inner + i), ErrorKind.NonAsciiInByteLiteral⟩
    else
      rawFindCloseSpecExact input n start_inner (i + 1) rest

/-- Byte `j` of the input neither aborts the escaped scan nor starts an
escape: it exists, is not a backslash, not a quote, is ASCII, and if it is a
carriage return it is followed by a line feed. -/
def escCleanAt (input : List Nat) (j : Nat) : Bool :=
  match input[j]? with
  | Option.none => false
  | Option.some b =>
    if b = 92 then false
    else if b = 34 then false
    else if ¬ b < 128 then false
    else if b = 13 then decide (input[j + 1]? = Option.some 10)
    else true

/-- A raw byte-string input whose opening fence has exactly 2^32 hash
characters: `br`, 2^32 hashes, a quote, an empty interior, a quote, 2^32
hashes. -/
def hugeFenceInput : List Nat :=
  [98, 114] ++ (List.replicate 4294967296 35 ++
    ([34, 34] ++ List.replicate 4294967296 35))

/-! ### Helper lemmas about the escape decoder -/

theorem unescapeByte_len {s : List Nat} {offset c len : Nat}
    (h : unescapeByte s offset = .ok (c, len)) : 2 ≤ len := by
  unfold unescapeByte at h
  repeat' split at h
  all_goals simp_all
  all_goals omega

theorem unescapeByte_error_pos {s : List Nat} {offset : Nat} {e : Error}
    (h : unescapeByte s offset = .error e) : ∀ k, e.pos ≠ Pos.single k := by
  intro k
  unfold unescapeByte at h
  repeat' split at h
  all_goals first
    | (injection h with h; rw [← h]; simp)
    | exact absurd h (by simp)

/-! ### Helper lemmas about the opening fence counter -/

theorem positionNotHash_spec {l : List Nat} :
    ∀ {n : Nat}, positionNotHash l = Option.some n →
      (∀ k, k < n → l[k]? = Option.some 35) ∧
        ∃ b, l[n]? = Option.some b ∧ b ≠ 35 := by
  induction l with
  | nil => intro n h; simp [positionNotHash] at h
  | cons b rest ih =>
    intro n h
    unfold positionNotHash at h
    split at h
    · next hb =>
      injection h with h
      subst h
      exact ⟨fun k hk => absurd hk (by omega), ⟨b, by simp, hb⟩⟩
    · next hb =>
      push_neg at hb
      match hm : positionNotHash rest with
      | Option.none => rw [hm] at h; exact absurd h (by simp)
      | Option.some m =>
        rw [hm] at h
        simp only [Option.map] at h
        injection h with h
        subst h
        obtain ⟨ih1, bb, hbb, hbb35⟩ := ih hm
        constructor
        · intro k hk
          cases k with
          | zero => simpa using hb
          | succ k => simpa using ih1 k (by omega)
        · exact ⟨bb, by simpa using hbb, hbb35⟩

/-! ### Helper lemmas about the raw close scanner -/

theorem rawFindClose_err_pos {input hashes : List Nat} {si : Nat} {l : List Nat} :
    ∀ {i : Nat} {e : Error}, rawFindClose input hashes si i l = .error e →
      ∃ k, e = ⟨Pos.single k, ErrorKind.NonAsciiInByteLiteral⟩ ∧ si + i ≤ k := by
  induction l with
  | nil => intro i e h; exact absurd h (by simp [rawFindClose])
  | cons b rest ih =>
    intro i e h
    unfold rawFindClose at h
    split at h
    · exact absurd h (by simp)
    · split at h
      · injection h with h
        exact ⟨si + i, by rw [← h], le_refl _⟩
      · obtain ⟨k, hk, hge⟩ := ih h
        exact ⟨k, hk, by omega⟩

theorem rawFindClose_ok_some {input hashes : List Nat} {si : Nat} {l : List Nat} :
    ∀ {i p : Nat}, l = input.drop (si + i) →
      rawFindClose input hashes si i l = .ok (Option.some p) →
      si + i ≤ p ∧ input[p]? = Option.some 34 ∧
        hashes.isPrefixOf (input.drop (p + 1)) = true ∧
        ∀ q, si + i ≤ q → q < p →
          ¬(input[q]? = Option.some 34 ∧
              hashes.isPrefixOf (input.drop (q + 1)) = true) := by
  induction l with
  | nil => intro i p _ h; exact absurd h (by simp [rawFindClose])
  | cons b rest ih =>
    intro i p hl h
    have hbi : input[si + i]? = Option.some b := by
      have hd := List.getElem?_drop input (si + i) 0
      rw [← hl] at hd
      simpa using hd.symm
    have hrest : rest = input.drop (si + i + 1) := by
      have hd := congrArg (List.drop 1) hl
      simp only [List.drop_drop] at hd
      simpa [Nat.add_comm] using hd
    unfold rawFindClose at h
    split at h
    · next hc =>
      obtain ⟨hb34, hpre⟩ := hc
      have hp : p = si + i := by
        injection h with h
        injection h with h
        omega
      subst hp
      subst hb34
      refine ⟨le_refl _, hbi, hpre, ?_⟩
      intro q hq1 hq2
      exact absurd hq2 (by omega)
    · split at h
      · exact absurd h (by simp)
      · next hc _ =>
        have hrec := ih (i := i + 1) (p := p)
          (by rw [← Nat.add_assoc]; exact hrest) h
        refine ⟨by omega, hrec.2.1, hrec.2.2.1, ?_⟩
        intro q hq1 hq2 hcand
        by_cases hqi : q = si + i
        · subst hqi
          obtain ⟨h34, hpr⟩ := hcand
          rw [hbi] at h34
          injection h34 with h34
          exact hc ⟨h34, hpr⟩
        · exact hrec.2.2.2 q (by omega) hq2 hcand

/-! ### Helper lemmas about the escaped scan loop -/

theorem escCleanAt_iff {input : List Nat} {j : Nat} :
    escCleanAt input j = true ↔
      ∃ b, input[j]? = Option.some b ∧ ¬ b = 92 ∧ ¬ b = 34 ∧ b < 128 ∧
        (b = 13 → input[j + 1]? = Option.some 10) := by
  unfold escCleanAt
  constructor
  · intro hcl
    split at hcl
    · simp at hcl
    · next b heq =>
      split at hcl
      · simp at hcl
      · next h92 =>
        split at hcl
        · simp at hcl
        · next h34 =>
          split at hcl
          · simp at hcl
          · next hna =>
            split at hcl
            · next h13 =>
              rw [decide_eq_true_eq] at hcl
              exact ⟨b, heq, h92, h34, by omega, fun _ => hcl⟩
            · next h13 =>
              exact ⟨b, heq, h92, h34, by omega, fun hb => absurd hb h13⟩
  · rintro ⟨b, heq, h92, h34, hlt, h13⟩
    rw [heq]
    simp only []
    rw [if_neg h92, if_neg h34, if_neg (not_not_intro hlt)]
    by_cases hb13 : b = 13
    · rw [if_pos hb13, decide_eq_true_eq]
      exact h13 hb13
    · rw [if_neg hb13]

theorem escLoop_step_clean (input : List Nat) (fuel i elE : Nat) (v : List Nat)
    (hcl : escCleanAt input i = true) (hi : i < input.length - 1) :
    escLoop input (fuel + 1) i elE v = escLoop input fuel (i + 1) elE v := by
  obtain ⟨b, heq, h92, h34, hlt, h13⟩ := escCleanAt_iff.mp hcl
  conv_lhs => unfold escLoop
  rw [if_pos hi, heq]
  simp only []
  rw [if_neg h92]
  by_cases hb13 : b = 13
  · rw [if_pos hb13, h13 hb13]
    simp only []
    rw [if_neg (by simp)]
  · rw [if_neg hb13, if_neg h34, if_neg (not_not_intro hlt)]

theorem escLoop_quote_hit (input : List Nat) (fuel i elE : Nat) (v : List Nat)
    (hi : i < input.length - 1) (hq : input[i]? = Option.some 34) :
    escLoop input (fuel + 1) i elE v =
      .err ⟨Pos.span (i + 1) input.length, ErrorKind.UnexpectedChar⟩ := by
  unfold escLoop
  rw [if_pos hi, hq]
  simp only []
  simp

theorem escLoop_reach_quote (input : List Nat) {q : Nat}
    (hq34 : input[q]? = Option.some 34) (hqlt : q < input.length - 1) :
    ∀ fuel i elE v, i ≤ q → q - i < fuel →
      (∀ j, j < q → i ≤ j → escCleanAt input j = true) →
      escLoop input fuel i elE v =
        .err ⟨Pos.span (q + 1) input.length, ErrorKind.UnexpectedChar⟩ := by
  intro fuel
  induction fuel with
  | zero => intro i elE v h1 h2 h3; omega
  | succ fuel ih =>
    intro i elE v hiq hfuel hclean
    by_cases hieq : i = q
    · subst hieq
      exact escLoop_quote_hit input fuel i elE v hqlt hq34
    · rw [escLoop_step_clean input fuel i elE v
        (hclean i (by omega) (le_refl i)) (by omega)]
      exact ih (i + 1) elE v (by omega) (by omega)
        (fun j hj hij => hclean j hj (by omega))

theorem escLoop_nonascii_hit (input : List Nat) (fuel i elE : Nat) (v : List Nat)
    {b : Nat} (hi : i < input.length - 1) (hb : input[i]? = Option.some b)
    (hge : 128 ≤ b) :
    escLoop input (fuel + 1) i elE v =
      .err ⟨Pos.single i, ErrorKind.NonAsciiInByteLiteral⟩ := by
  unfold escLoop
  rw [if_pos hi, hb]
  simp only []
  rw [if_neg (by omega), if_neg (by omega), if_neg (by omega),
    if_pos (by omega)]

theorem escLoop_err_nonascii_ge (input : List Nat) :
    ∀ fuel i elE v k, escLoop input fuel i elE v =
        .err ⟨Pos.single k, ErrorKind.NonAsciiInByteLiteral⟩ → i ≤ k := by
  intro fuel
  induction fuel with
  | zero => intro i elE v k h; exact absurd h (by simp [escLoop])
  | succ fuel ih =>
    intro i elE v k h
    unfold escLoop at h
    split at h
    · split at h
      · exact absurd h (by simp)
      · next b heq =>
        split at h
        · split at h
          · split at h
            · next e hu =>
              injection h with h
              exact absurd (show e.pos = Pos.single k by rw [h])
                (unescapeByte_error_pos hu k)
            · exact le_trans (Nat.le_add_right i _) (ih _ _ _ _ h)
          · exact absurd h (by simp)
        · split at h
          · split at h
            · exact absurd h (by simp)
            · split at h
              · injection h with h
                exact absurd h (by simp)
              · exact le_trans (Nat.le_succ i) (ih _ _ _ _ h)
          · split at h
            · injection h with h
              exact absurd h (by simp)
            · split at h
              · injection h with h
                simp only [Error.mk.injEq, Pos.single.injEq] at h
                omega
              · exact le_trans (Nat.le_succ i) (ih _ _ _ _ h)
    · exact absurd h (by simp)

theorem escLoop_ok_empty (input : List Nat) :
    ∀ fuel i elE v out, escLoop input fuel i elE v = .ok out →
      (out.1 = [] ↔ v = [] ∧
        ∀ j, j < input.length - 1 → i ≤ j → input[j]? ≠ Option.some 92) := by
  intro fuel
  induction fuel with
  | zero => intro i elE v out h; exact absurd h (by simp [escLoop])
  | succ fuel ih =>
    intro i elE v out h
    unfold escLoop at h
    split at h
    · next hi =>
      split at h
      · exact absurd h (by simp)
      · next b heq =>
        split at h
        · next hb92 =>
          split at h
          · next hbd =>
            split at h
            · exact absurd h (by simp)
            · next c len hu =>
              have hrec := ih _ _ _ _ h
              constructor
              · intro hout
                rw [hrec] at hout
                exact absurd hout.1 (by simp)
              · rintro ⟨-, hall⟩
                exact absurd (show input[i]? = Option.some 92 by rw [heq, hb92])
                  (hall i hi (le_refl i))
          · next hbd =>
            constructor
            · intro hout
              exact absurd h (by simp)
            · rintro ⟨-, hall⟩
              exact absurd (show input[i]? = Option.some 92 by rw [heq, hb92])
                (hall i hi (le_refl i))
        · next hb92 =>
          split at h
          · next hb13 =>
            split at h
            · exact absurd h (by simp)
            · next b2 heq2 =>
              split at h
              · exact absurd h (by simp)
              · have hrec := ih _ _ _ _ h
                rw [hrec]
                constructor
                · rintro ⟨hv, hall⟩
                  refine ⟨hv, fun j hj hij => ?_⟩
                  by_cases hji : j = i
                  · subst hji
                    rw [heq, hb13]
                    simp
                  · exact hall j hj (by omega)
                · rintro ⟨hv, hall⟩
                  exact ⟨hv, fun j hj hij => hall j hj (by omega)⟩
          · next hb13 =>
            split at h
            · exact absurd h (by simp)
            · split at h
              · exact absurd h (by simp)
              · have hrec := ih _ _ _ _ h
                rw [hrec]
                constructor
                · rintro ⟨hv, hall⟩
                  refine ⟨hv, fun j hj hij => ?_⟩
                  by_cases hji : j = i
                  · subst hji
                    rw [heq]
                    simpa using hb92
                  · exact hall j hj (by omega)
                · rintro ⟨hv, hall⟩
                  exact ⟨hv, fun j hj hij => hall j hj (by omega)⟩
    · next hi =>
      injection h with h
      subst h
      constructor
      · intro hv
        exact ⟨hv, fun j hj hij => absurd hj (by omega)⟩
      · rintro ⟨hv, -⟩
        exact hv

/-! ### Inversion of a successful parse -/

theorem parse_ok_inv {input : List Nat} {lit : ByteStringLit}
    (h : ByteStringLit.parse input = .ok lit) :
    ([98, 114].isPrefixOf input = true ∧ ∃ n p,
        positionNotHash (input.drop 2) = Option.some n ∧
        input[2 + n]? = Option.some 34 ∧
        rawFindClose input ((input.drop 2).take n) (2 + n + 1) 0
          (input.drop (2 + n + 1)) = .ok (Option.some p) ∧
        p + n = input.length - 1 ∧
        lit = ⟨input, Option.none, Option.some (n % 4294967296)⟩) ∨
    ([98, 34].isPrefixOf input = true ∧ [98, 114].isPrefixOf input = false ∧
        input.length ≠ 2 ∧ input[input.length - 1]? = Option.some 34 ∧
        ∃ value elE, escLoop input input.length 2 2 [] = .ok (value, elE) ∧
        lit = ⟨input,
          if value = [] then Option.none
          else Option.some
            (value ++ (input.drop elE).take (input.length - 1 - elE)),
          Option.none⟩) := by
  unfold ByteStringLit.parse at h
  split at h
  · exact absurd h (by simp)
  · split at h
    · exact absurd h (by simp)
    · next hne hpre =>
      unfold ByteStringLit.parse_impl at h
      split at h
      · next hbr =>
        left
        refine ⟨hbr, ?_⟩
        split at h
        · exact absurd h (by simp)
        · next n hn =>
          split at h
          · exact absurd h (by simp)
          · next hq =>
            split at h
            · exact absurd h (by simp)
            · exact absurd h (by simp)
            · next p hclose =>
              split at h
              · exact absurd h (by simp)
              · next hend =>
                injection h with h
                exact ⟨n, p, hn, not_ne_iff.mp hq, hclose,
                  not_ne_iff.mp hend, h.symm⟩
      · next hbr =>
        right
        have hb2 : [98, 34].isPrefixOf input = true := by
          rcases not_and_or.mp hpre with h1 | h2
          · exact not_not.mp h1
          · exact absurd (not_not.mp h2) hbr
        split at h
        · exact absurd h (by simp)
        · exact absurd h (by simp)
        · next value elE hesc =>
          split at h
          · exact absurd h (by simp)
          · next last hlast =>
            split at h
            · exact absurd h (by simp)
            · next hcond =>
              push_neg at hcond
              obtain ⟨hl34, hlen2⟩ := hcond
              injection h with h
              exact ⟨hb2, Bool.eq_false_iff.mpr hbr, hlen2, by rw [hlast, hl34],
                value, elE, hesc, h.symm⟩

theorem prefix2_length {a b : Nat} {input : List Nat}
    (h : [a, b].isPrefixOf input = true) : 2 ≤ input.length := by
  have := List.IsPrefix.length_le (List.isPrefixOf_iff_prefix.mp h)
  simpa using this

/-! ### Claim theorems -/

/-- C2 (code bug): the spec demands that an isolated carriage return is never
accepted, raw or escaped; the escaped path indeed rejects it with
`IsolatedCr` at its offset, but the raw path of `ByteStringLit::parse_impl`
performs no carriage-return check at all, so the raw byte-string input
`br"<CR>"` (bytes 98 114 34 13 34) parses successfully. -/
theorem C2_raw_accepts_isolated_cr :
    ByteStringLit.parse [98, 114, 34, 13, 34] =
      .ok ⟨[98, 114, 34, 13, 34], Option.none, Option.some 0⟩ ∧
    ByteStringLit.parse [98, 34, 13, 34] =
      .err ⟨Pos.single 2, ErrorKind.IsolatedCr⟩ := by
  exact ⟨by decide, by decide⟩

/-- C3 counterexample: the claim says every parse entry point fails with
`Empty` on zero-length input, but `BoolLit::parse` falls through its match
and fails with `InvalidLiteral`, which is a different discriminant. -/
theorem C3_counterexample :
    BoolLit.parse "" = .err ⟨Pos.none, ErrorKind.InvalidLiteral⟩ ∧
    ErrorKind.InvalidLiteral ≠ ErrorKind.Empty := by
  exact ⟨by decide, by decide⟩

/-- C3 (amended): `ByteStringLit::parse` fails with `Empty` on zero-length
input, while `BoolLit::parse` fails with `InvalidLiteral` on zero-length
input (it has no dedicated empty-input check). -/
theorem C3_empty_input :
    ByteStringLit.parse [] = .err ⟨Pos.none, ErrorKind.Empty⟩ ∧
    BoolLit.parse "" = .err ⟨Pos.none, ErrorKind.InvalidLiteral⟩ := by
  exact ⟨by decide, by decide⟩

/-- C9 (code bug): the parse is not total.  The escaped branch of
`ByteStringLit::parse_impl` slices the input as a str with
`&input[i..input.len() - 1]` (src/bytestr/mod.rs line 112); the end bound
`len - 1` need not be a char boundary, and on the valid UTF-8 input `b"\é`
(bytes 98 34 92 195 169) the scan reaches the backslash at i = 2 with end
bound 4 pointing at the continuation byte of `é`, so the program panics.
The embedding returns the distinguished panic outcome there. -/
theorem C9_char_boundary_panic :
    ByteStringLit.parse [98, 34, 92, 195, 169] = ParseOutcome.panic := by
  decide

/-- C10: `into_owned` only changes ownership of the raw buffer: the raw
bytes, the decoded value field and the hash count are unchanged, hence
`value()` and `is_raw_byte_string()` agree before and after. -/
theorem C10_into_owned_frame (input : List Nat) (lit : ByteStringLit)
    (_h : ByteStringLit.parse input = .ok lit) :
    lit.into_owned.raw = lit.raw ∧
    lit.into_owned.value = lit.value ∧
    lit.into_owned.num_hashes = lit.num_hashes ∧
    lit.into_owned.valueBytes = lit.valueBytes ∧
    lit.into_owned.is_raw_byte_string = lit.is_raw_byte_string :=
  ⟨rfl, rfl, rfl, rfl, rfl⟩

/-- C10 witness: the frame property at the parse of `b"a"`. -/
theorem C10_witness :
    (⟨[98, 34, 97, 34], Option.none, Option.none⟩ : ByteStringLit).into_owned.raw
        = (⟨[98, 34, 97, 34], Option.none, Option.none⟩ : ByteStringLit).raw ∧
    (⟨[98, 34, 97, 34], Option.none, Option.none⟩ : ByteStringLit).into_owned.value
        = (⟨[98, 34, 97, 34], Option.none, Option.none⟩ : ByteStringLit).value ∧
    (⟨[98, 34, 97, 34], Option.none, Option.none⟩ : ByteStringLit).into_owned.num_hashes
        = (⟨[98, 34, 97, 34], Option.none, Option.none⟩ : ByteStringLit).num_hashes ∧
    (⟨[98, 34, 97, 34], Option.none, Option.none⟩ : ByteStringLit).into_owned.valueBytes
        = (⟨[98, 34, 97, 34], Option.none, Option.none⟩ : ByteStringLit).valueBytes ∧
    (⟨[98, 34, 97, 34], Option.none, Option.none⟩ : ByteStringLit).into_owned.is_raw_byte_string
        = (⟨[98, 34, 97, 34], Option.none, Option.none⟩ : ByteStringLit).is_raw_byte_string :=
  C10_into_owned_frame [98, 34, 97, 34] _ (by decide)

/-- C6: every successfully parsed literal satisfies the model invariants:
a raw literal (num_hashes present) has no decoded value, and `inner_range`
is a valid byte range into `raw` (start at most stop, stop at most the
length). -/
theorem C6_invariants (input : List Nat) (lit : ByteStringLit)
    (h : ByteStringLit.parse input = .ok lit) :
    (lit.num_hashes.isSome = true → lit.value = Option.none) ∧
    lit.inner_range.1 ≤ lit.inner_range.2 ∧
    lit.inner_range.2 ≤ lit.raw.length := by
  rcases parse_ok_inv h with ⟨hbr, n, p, hn, hq, hclose, hend, hlit⟩ |
    ⟨hb2, hbrf, hlen2, hlast, value, elE, hesc, hlit⟩
  · subst hlit
    have hlen : 2 ≤ input.length := prefix2_length hbr
    have hple := (rawFindClose_ok_some (by rw [Nat.add_zero]) hclose).1
    have hplt : p < input.length := by
      have := (rawFindClose_ok_some (by rw [Nat.add_zero]) hclose).2.1
      rw [List.getElem?_eq_some_iff] at this
      exact this.1
    refine ⟨fun _ => rfl, ?_, ?_⟩
    · simp only [ByteStringLit.inner_range]
      omega
    · simp only [ByteStringLit.inner_range]
      omega
  · subst hlit
    have hlen : 2 ≤ input.length := prefix2_length hb2
    refine ⟨?_, ?_, ?_⟩
    · intro hs
      simp at hs
    · simp only [ByteStringLit.inner_range]
      omega
    · simp only [ByteStringLit.inner_range]
      omega

/-- C6 witness: the invariants at the parse of `b"a"`. -/
theorem C6_witness :
    ((⟨[98, 34, 97, 34], Option.none, Option.none⟩ : ByteStringLit).num_hashes.isSome = true →
      (⟨[98, 34, 97, 34], Option.none, Option.none⟩ : ByteStringLit).value = Option.none) ∧
    (⟨[98, 34, 97, 34], Option.none, Option.none⟩ : ByteStringLit).inner_range.1 ≤
      (⟨[98, 34, 97, 34], Option.none, Option.none⟩ : ByteStringLit).inner_range.2 ∧
    (⟨[98, 34, 97, 34], Option.none, Option.none⟩ : ByteStringLit).inner_range.2 ≤
      (⟨[98, 34, 97, 34], Option.none, Option.none⟩ : ByteStringLit).raw.length :=
  C6_invariants [98, 34, 97, 34] _ (by decide)

theorem mem_slice_iff {input : List Nat} {a : Nat} :
    a ∈ (input.drop 2).take (input.length - 3) ↔
      ∃ j, j < input.length - 1 ∧ 2 ≤ j ∧ input[j]? = Option.some a := by
  rw [List.mem_iff_getElem?]
  constructor
  · rintro ⟨k, hk⟩
    rw [List.getElem?_take] at hk
    by_cases hlt : k < input.length - 3
    · rw [if_pos hlt, List.getElem?_drop] at hk
      exact ⟨2 + k, by omega, by omega, hk⟩
    · rw [if_neg hlt] at hk
      exact absurd hk (by simp)
  · rintro ⟨j, hj1, hj2, hj⟩
    refine ⟨j - 2, ?_⟩
    rw [List.getElem?_take, if_pos (by omega), List.getElem?_drop,
      show 2 + (j - 2) = j by omega]
    exact hj

/-- C4: for a successfully parsed escaped byte-string literal, the decoded
buffer is `none` exactly when the interior (the bytes strictly between the
quotes) contains no backslash, in which case `value()` is exactly that
interior slice; when the buffer is present, `value()` returns exactly the
accumulated decoded bytes. -/
theorem C4_escaped_decoded (input : List Nat) (lit : ByteStringLit)
    (h : ByteStringLit.parse input = .ok lit) (hn : lit.num_hashes = Option.none) :
    (lit.value = Option.none ↔ ¬ 92 ∈ (input.drop 2).take (input.length - 3)) ∧
    (lit.value = Option.none →
      lit.valueBytes = (input.drop 2).take (input.length - 3)) ∧
    (∀ v, lit.value = Option.some v → lit.valueBytes = v) := by
  rcases parse_ok_inv h with ⟨hbr, n, p, -, -, -, -, hlit⟩ |
    ⟨hb2, hbrf, hlen2, hlast, value, elE, hesc, hlit⟩
  · rw [hlit] at hn
    simp at hn
  · have hraw : lit.raw = input := by rw [hlit]
    have hvalue : lit.value =
        (if value = [] then Option.none
         else Option.some
           (value ++ (input.drop elE).take (input.length - 1 - elE))) := by
      rw [hlit]
    have hempty := escLoop_ok_empty input input.length 2 2 [] (value, elE) hesc
    simp only [] at hempty
    have hnone_iff : lit.value = Option.none ↔ value = [] := by
      rw [hvalue]
      split
      · next hv => simp [hv]
      · next hv => simp [hv]
    refine ⟨?_, ?_, ?_⟩
    · rw [hnone_iff]
      rw [show value = [] ↔
          ∀ j, j < input.length - 1 → 2 ≤ j → input[j]? ≠ Option.some 92 from by
        rw [hempty]; simp]
      rw [mem_slice_iff]
      constructor
      · rintro hall ⟨j, h1, h2, h3⟩
        exact hall j h1 h2 h3
      · intro hne j h1 h2 h3
        exact hne ⟨j, h1, h2, h3⟩
    · intro hv
      unfold ByteStringLit.valueBytes
      rw [hv]
      simp only []
      unfold ByteStringLit.inner_range
      rw [hn]
      simp only []
      rw [hraw, show input.length - 1 - 2 = input.length - 3 from by omega]
    · intro v hv
      unfold ByteStringLit.valueBytes
      rw [hv]

/-- C4 witness: the parse of `b"a\nb"` decodes the escape, and the parse of
`b"ab"` keeps the verbatim interior. -/
theorem C4_witness :
    ((⟨[98, 34, 97, 92, 110, 98, 34], Option.some [97, 10, 98],
        Option.none⟩ : ByteStringLit).value = Option.none ↔
      ¬ 92 ∈ (([98, 34, 97, 92, 110, 98, 34] : List Nat).drop 2).take
        (([98, 34, 97, 92, 110, 98, 34] : List Nat).length - 3)) ∧
    ((⟨[98, 34, 97, 92, 110, 98, 34], Option.some [97, 10, 98],
        Option.none⟩ : ByteStringLit).value = Option.none →
      (⟨[98, 34, 97, 92, 110, 98, 34], Option.some [97, 10, 98],
        Option.none⟩ : ByteStringLit).valueBytes =
        (([98, 34, 97, 92, 110, 98, 34] : List Nat).drop 2).take
          (([98, 34, 97, 92, 110, 98, 34] : List Nat).length - 3)) ∧
    (∀ v, (⟨[98, 34, 97, 92, 110, 98, 34], Option.some [97, 10, 98],
        Option.none⟩ : ByteStringLit).value = Option.some v →
      (⟨[98, 34, 97, 92, 110, 98, 34], Option.some [97, 10, 98],
        Option.none⟩ : ByteStringLit).valueBytes = v) :=
  C4_escaped_decoded [98, 34, 97, 92, 110, 98, 34] _ (by decide) rfl

/-- C8: the raw and escaped scanners reject identical byte ranges: a byte
examined outside an escape sequence triggers `NonAsciiInByteLiteral` at its
own offset in the raw scan if and only if it does so in the escaped scan,
namely exactly when its value is at least 128 (high bit set). -/
theorem C8_nonascii_agreement :
    (∀ (input hashes : List Nat) (si i b : Nat) (rest : List Nat),
      rawFindClose input hashes si i (b :: rest) =
          .error ⟨Pos.single (si + i), ErrorKind.NonAsciiInByteLiteral⟩ ↔
        128 ≤ b) ∧
    (∀ (input : List Nat) (fuel i elE : Nat) (v : List Nat) (b : Nat),
      i < input.length - 1 → input[i]? = Option.some b →
      (escLoop input (fuel + 1) i elE v =
          .err ⟨Pos.single i, ErrorKind.NonAsciiInByteLiteral⟩ ↔
        128 ≤ b)) := by
  constructor
  · intro input hashes si i b rest
    constructor
    · intro h
      by_contra hge
      push_neg at hge
      unfold rawFindClose at h
      split at h
      · exact absurd h (by simp)
      · next hc =>
        obtain ⟨k, hk, hkge⟩ := rawFindClose_err_pos h
        simp only [Error.mk.injEq, Pos.single.injEq] at hk
        omega
    · intro hge
      unfold rawFindClose
      rw [if_neg (by rintro ⟨hb, -⟩; omega), if_pos (by omega)]
  · intro input fuel i elE v b hi hb
    constructor
    · intro h
      by_contra hge
      push_neg at hge
      unfold escLoop at h
      rw [if_pos hi, hb] at h
      simp only [] at h
      by_cases h92 : b = 92
      · rw [if_pos h92] at h
        split at h
        · next hbd =>
          split at h
          · next e hu =>
            injection h with h
            exact unescapeByte_error_pos hu i (by rw [h])
          · next c len hu =>
            have hl := unescapeByte_len hu
            have := escLoop_err_nonascii_ge input fuel _ _ _ _ h
            omega
        · exact absurd h (by simp)
      · rw [if_neg h92] at h
        by_cases h13 : b = 13
        · rw [if_pos h13] at h
          split at h
          · exact absurd h (by simp)
          · next b2 heq2 =>
            split at h
            · injection h with h
              simp at h
            · have := escLoop_err_nonascii_ge input fuel _ _ _ _ h
              omega
        · rw [if_neg h13] at h
          by_cases h34 : b = 34
          · rw [if_pos h34] at h
            injection h with h
            simp at h
          · rw [if_neg h34, if_neg (not_not_intro hge)] at h
            have := escLoop_err_nonascii_ge input fuel _ _ _ _ h
            omega
    · intro hge
      exact escLoop_nonascii_hit input fuel i elE v hi hb hge

/-- C8 witness: the agreement at the concrete byte 200. -/
theorem C8_witness :
    rawFindClose [98, 114, 34, 200, 34] [] 3 0 [200, 34] =
      .error ⟨Pos.single 3, ErrorKind.NonAsciiInByteLiteral⟩ ∧
    escLoop [98, 34, 200, 34] 4 2 2 [] =
      .err ⟨Pos.single 2, ErrorKind.NonAsciiInByteLiteral⟩ := by
  refine ⟨?_, ?_⟩
  · exact (C8_nonascii_agreement.1 [98, 114, 34, 200, 34] [] 3 0 200 [34]).mpr
      (by decide)
  · exact (C8_nonascii_agreement.2 [98, 34, 200, 34] 3 2 2 [] 200 (by decide)
      (by decide)).mpr (by decide)

/-- C1 (amended): the raw scanner treats an interior quote byte as a
candidate close exactly when the n-hash fence is a prefix of the bytes that
immediately follow it, that is, when it is followed by at least n hash
characters (a quote followed by fewer than n hashes is not a candidate, but
one followed by more than n hashes is); the first such candidate terminates
the interior. -/
theorem C1_first_prefix_candidate (input hashes : List Nat) (si p : Nat)
    (h : rawFindClose input hashes si 0 (input.drop si) = .ok (Option.some p)) :
    si ≤ p ∧ input[p]? = Option.some 34 ∧
      hashes.isPrefixOf (input.drop (p + 1)) = true ∧
      ∀ q, si ≤ q → q < p →
        ¬(input[q]? = Option.some 34 ∧
            hashes.isPrefixOf (input.drop (q + 1)) = true) := by
  have hres := rawFindClose_ok_some (by rw [Nat.add_zero]) h
  simp only [Nat.add_zero] at hres
  exact hres

/-- C1 counterexample: on `br##"a"###"##` the quote at offset 6 is followed
by three hash characters, not exactly two, yet the scanner takes it as the
candidate close (the fence is matched as a prefix), so the parse fails with
`UnexpectedChar` over the trailing bytes; under the spec's exact-fence
reading the first candidate would be the quote at offset 10 instead. -/
theorem C1_counterexample :
    rawFindClose [98, 114, 35, 35, 34, 97, 34, 35, 35, 35, 34, 35, 35]
        [35, 35] 5 0
        ([98, 114, 35, 35, 34, 97, 34, 35, 35, 35, 34, 35, 35].drop 5) =
      .ok (Option.some 6) ∧
    ([98, 114, 35, 35, 34, 97, 34, 35, 35, 35, 34, 35, 35].drop 7).take 3 =
      [35, 35, 35] ∧
    rawFindCloseSpecExact [98, 114, 35, 35, 34, 97, 34, 35, 35, 35, 34, 35, 35]
        2 5 0
        ([98, 114, 35, 35, 34, 97, 34, 35, 35, 35, 34, 35, 35].drop 5) =
      .ok (Option.some 10) ∧
    ByteStringLit.parse [98, 114, 35, 35, 34, 97, 34, 35, 35, 35, 34, 35, 35] =
      .err ⟨Pos.span 9 13, ErrorKind.UnexpectedChar⟩ := by
  exact ⟨by rfl, by decide, by rfl, by decide⟩

/-- C1 witness: the characterization applied to `br#"a"#`. -/
theorem C1_witness :
    (4 : Nat) ≤ 5 ∧
    ([98, 114, 35, 34, 97, 34, 35] : List Nat)[5]? = Option.some 34 ∧
    [35].isPrefixOf (([98, 114, 35, 34, 97, 34, 35] : List Nat).drop 6) = true ∧
    ¬(([98, 114, 35, 34, 97, 34, 35] : List Nat)[4]? = Option.some 34 ∧
        [35].isPrefixOf (([98, 114, 35, 34, 97, 34, 35] : List Nat).drop 5) = true) := by
  have h := C1_first_prefix_candidate [98, 114, 35, 34, 97, 34, 35] [35] 4 5
    (by rfl)
  exact ⟨h.1, h.2.1, h.2.2.1, h.2.2.2 4 (by decide) (by decide)⟩

/-- C7: when a closing quote is matched before the end of the input with
bytes remaining after the match, parse fails with `UnexpectedChar` spanning
from just after the match to the end of the input: in the raw path from just
after the closing fence, in the escaped path from just after the bare quote
(reached by a scan over bytes that neither escape nor abort). -/
theorem C7_trailing_unexpected_char :
    (∀ (input : List Nat) (n p : Nat),
      [98, 114].isPrefixOf input = true →
      positionNotHash (input.drop 2) = Option.some n →
      input[2 + n]? = Option.some 34 →
      rawFindClose input ((input.drop 2).take n) (2 + n + 1) 0
        (input.drop (2 + n + 1)) = .ok (Option.some p) →
      p + n ≠ input.length - 1 →
      ByteStringLit.parse input =
        .err ⟨Pos.span (p + n + 1) input.length, ErrorKind.UnexpectedChar⟩) ∧
    (∀ (input : List Nat) (q : Nat),
      [98, 34].isPrefixOf input = true →
      [98, 114].isPrefixOf input = false →
      2 ≤ q → q < input.length - 1 → input[q]? = Option.some 34 →
      (∀ j, j < q → 2 ≤ j → escCleanAt input j = true) →
      ByteStringLit.parse input =
        .err ⟨Pos.span (q + 1) input.length, ErrorKind.UnexpectedChar⟩) := by
  constructor
  · intro input n p hbr hn hq hclose hend
    have hlen : 2 ≤ input.length := prefix2_length hbr
    unfold ByteStringLit.parse
    rw [if_neg (by
      intro hx
      rw [List.isEmpty_iff] at hx
      subst hx
      simp at hlen)]
    rw [if_neg (by rintro ⟨-, h2⟩; exact h2 hbr)]
    unfold ByteStringLit.parse_impl
    rw [if_pos hbr, hn]
    simp only []
    rw [if_neg (not_ne_iff.mpr hq), hclose]
    simp only []
    rw [if_pos hend]
  · intro input q hb2 hbrf h2q hqlt hq34 hclean
    have hlen : 2 ≤ input.length := prefix2_length hb2
    unfold ByteStringLit.parse
    rw [if_neg (by
      intro hx
      rw [List.isEmpty_iff] at hx
      subst hx
      simp at hlen)]
    rw [if_neg (by rintro ⟨h1, -⟩; exact h1 hb2)]
    unfold ByteStringLit.parse_impl
    rw [if_neg (by rw [hbrf]; simp)]
    rw [escLoop_reach_quote input hq34 hqlt input.length 2 2 [] h2q (by omega)
      (fun j hj hij => hclean j hj hij)]

/-- C7 witness: `br"a"x` fails with `UnexpectedChar` over offsets 5..6, and
`b"a"x` fails with `UnexpectedChar` over offsets 4..5. -/
theorem C7_witness :
    ByteStringLit.parse [98, 114, 34, 97, 34, 120] =
      .err ⟨Pos.span 5 6, ErrorKind.UnexpectedChar⟩ ∧
    ByteStringLit.parse [98, 34, 97, 34, 120] =
      .err ⟨Pos.span 4 5, ErrorKind.UnexpectedChar⟩ := by
  constructor
  · exact C7_trailing_unexpected_char.1 [98, 114, 34, 97, 34, 120] 0 4
      (by decide) (by rfl) (by decide) (by rfl) (by decide)
  · exact C7_trailing_unexpected_char.2 [98, 34, 97, 34, 120] 3
      (by decide) (by decide) (by decide) (by decide) (by decide) (by decide)

/-- C5 (amended): for a successfully parsed raw byte-string literal whose
span is shorter than 2^32 bytes (so the opening fence has fewer than 2^32
hash characters and the source's `num_hashes as u32` cast is lossless),
`num_hashes` equals the number of hash characters of the opening fence, and
concatenating `br`, that many hashes, a quote, `value()`, a quote and that
many hashes reproduces the input span byte for byte. -/
theorem C5_raw_roundtrip (input : List Nat) (lit : ByteStringLit) (n : Nat)
    (h : ByteStringLit.parse input = .ok lit)
    (hn : lit.num_hashes = Option.some n)
    (hlen32 : input.length < 4294967296) :
    input = [98, 114] ++ List.replicate n 35 ++ [34] ++ lit.valueBytes
      ++ [34] ++ List.replicate n 35 := by
  rcases parse_ok_inv h with ⟨hbr, m, p, hpn, hq, hclose, hend, hlit⟩ |
    ⟨-, -, -, -, value, elE, -, hlit⟩
  swap
  · rw [hlit] at hn
    simp at hn
  have hmlt : 2 + m < input.length := (List.getElem?_eq_some_iff.mp hq).1
  have hm32 : m % 4294967296 = m := Nat.mod_eq_of_lt (by omega)
  rw [hm32] at hlit
  have hmn : m = n := by
    rw [hlit] at hn
    simpa using hn
  subst hmn
  have hlen : 2 ≤ input.length := prefix2_length hbr
  have hres := rawFindClose_ok_some (by rw [Nat.add_zero]) hclose
  simp only [Nat.add_zero] at hres
  have hsp : 2 + m + 1 ≤ p := hres.1
  have hp34 : input[p]? = Option.some 34 := hres.2.1
  have hpre := hres.2.2.1
  have hplt : p < input.length := (List.getElem?_eq_some_iff.mp hp34).1
  obtain ⟨hks, bb, hbb, hbb35⟩ := positionNotHash_spec hpn
  have B : (input.drop 2).take m = List.replicate m 35 := by
    apply List.ext_getElem?
    intro k
    rw [List.getElem?_take, List.getElem?_replicate]
    by_cases hk : k < m
    · rw [if_pos hk, if_pos hk]
      exact hks k hk
    · rw [if_neg hk, if_neg hk]
  have E1 : input.drop (p + 1) = List.replicate m 35 := by
    have hpfx := List.isPrefixOf_iff_prefix.mp hpre
    rw [B] at hpfx
    refine (List.IsPrefix.eq_of_length hpfx ?_).symm
    rw [List.length_replicate, List.length_drop]
    omega
  have E2 : input.drop p = 34 :: List.replicate m 35 := by
    obtain ⟨hplt2, hv⟩ := List.getElem?_eq_some_iff.mp hp34
    rw [List.drop_eq_getElem_cons hplt, hv, E1]
  have t2 : input.take 2 = [98, 114] := by
    have := List.prefix_iff_eq_take.mp (List.isPrefixOf_iff_prefix.mp hbr)
    simpa using this.symm
  have hq2 : (input.drop 2)[m]? = Option.some 34 := by
    rw [List.getElem?_drop]
    exact hq
  have T3 : input.take (2 + m + 1) = [98, 114] ++ List.replicate m 35 ++ [34] := by
    rw [show 2 + m + 1 = 2 + (m + 1) from by omega, List.take_add, t2,
      List.take_succ, B, hq2]
    simp [List.append_assoc]
  have hVB : lit.valueBytes = (input.drop (2 + m + 1)).take (p - (2 + m + 1)) := by
    rw [hlit]
    unfold ByteStringLit.valueBytes ByteStringLit.inner_range
    simp only []
    congr 1
    omega
  have hsplit2 : input.drop (2 + m + 1) =
      (input.drop (2 + m + 1)).take (p - (2 + m + 1)) ++ input.drop p := by
    have hdd : (input.drop (2 + m + 1)).drop (p - (2 + m + 1)) = input.drop p := by
      rw [List.drop_drop]
      congr 1
      omega
    rw [← hdd, List.take_append_drop]
  conv_lhs => rw [← List.take_append_drop (2 + m + 1) input]
  rw [hsplit2, E2, T3, ← hVB]
  simp [List.append_assoc]

/-- C5 witness: the round-trip at `br#"a"#`. -/
theorem C5_witness :
    ([98, 114, 35, 34, 97, 34, 35] : List Nat) =
      [98, 114] ++ List.replicate 1 35 ++ [34] ++
        (⟨[98, 114, 35, 34, 97, 34, 35], Option.none,
          Option.some 1⟩ : ByteStringLit).valueBytes ++
        [34] ++ List.replicate 1 35 :=
  C5_raw_roundtrip [98, 114, 35, 34, 97, 34, 35] _ 1 (by decide) rfl (by decide)

theorem positionNotHash_replicate (k b : Nat) (hb : b ≠ 35) (rest : List Nat) :
    positionNotHash (List.replicate k 35 ++ b :: rest) = Option.some k := by
  induction k with
  | zero => simp [positionNotHash, hb]
  | succ k ih => simp [List.replicate_succ, positionNotHash, ih]

/-- C5 counterexample: the source stores the fence count through the
truncating cast `num_hashes as u32`.  On a raw literal whose opening fence
has exactly 2^32 hash characters the parse succeeds but records
`hash_count = 0`, so the stored count is not the fence count and re-wrapping
the value with it does not reproduce the input span. -/
theorem C5_counterexample :
    positionNotHash (hugeFenceInput.drop 2) = Option.some 4294967296 ∧
    ByteStringLit.parse hugeFenceInput =
      .ok ⟨hugeFenceInput, Option.none, Option.some 0⟩ ∧
    hugeFenceInput ≠ [98, 114] ++ List.replicate 0 35 ++ [34] ++
      (⟨hugeFenceInput, Option.none,
        Option.some 0⟩ : ByteStringLit).valueBytes ++
      [34] ++ List.replicate 0 35 := by
  have hdrop2 : hugeFenceInput.drop 2 =
      List.replicate 4294967296 35 ++
        (34 :: 34 :: List.replicate 4294967296 35) := rfl
  have hpos : positionNotHash (hugeFenceInput.drop 2) =
      Option.some 4294967296 := by
    rw [hdrop2]
    exact positionNotHash_replicate 4294967296 34 (by decide)
      (34 :: List.replicate 4294967296 35)
  have hbr : [98, 114].isPrefixOf hugeFenceInput = true := rfl
  have hlen : hugeFenceInput.length = 8589934596 := by
    unfold hugeFenceInput
    simp only [List.length_append, List.length_replicate]
    decide
  have hq34 : hugeFenceInput[2 + 4294967296]? = Option.some 34 := by
    have h0 := List.getElem?_drop hugeFenceInput 2 4294967296
    rw [← h0, hdrop2,
      List.getElem?_append_right (le_of_eq (List.length_replicate _ _)),
      List.length_replicate, Nat.sub_self, List.getElem?_cons_zero]
  have htake : (hugeFenceInput.drop 2).take 4294967296 =
      List.replicate 4294967296 35 := by
    rw [hdrop2]
    have h1 := List.take_left (List.replicate 4294967296 35)
      (34 :: 34 :: List.replicate 4294967296 35)
    rwa [List.length_replicate] at h1
  have hdropmid : (hugeFenceInput.drop 2).drop 4294967296 =
      34 :: 34 :: List.replicate 4294967296 35 := by
    rw [hdrop2]
    have h1 := List.drop_left (List.replicate 4294967296 35)
      (34 :: 34 :: List.replicate 4294967296 35)
    rwa [List.length_replicate] at h1
  have hdropA : hugeFenceInput.drop (2 + 4294967296 + 1) =
      34 :: List.replicate 4294967296 35 := by
    have h1 := congrArg (List.drop 1) hdropmid
    rw [List.drop_drop, List.drop_drop] at h1
    exact h1
  have hdropB : hugeFenceInput.drop (2 + 4294967296 + 1 + 0 + 1) =
      List.replicate 4294967296 35 := by
    have h1 := congrArg (List.drop 1) hdropA
    rw [List.drop_drop] at h1
    exact h1
  have hrfc : rawFindClose hugeFenceInput (List.replicate 4294967296 35)
      (2 + 4294967296 + 1) 0 (34 :: List.replicate 4294967296 35) =
      .ok (Option.some (2 + 4294967296 + 1 + 0)) := by
    unfold rawFindClose
    rw [if_pos ⟨rfl, by
      rw [hdropB]
      exact List.isPrefixOf_iff_prefix.mpr (List.prefix_refl _)⟩]
  have hend32 : 2 + 4294967296 + 1 + 0 + 4294967296 =
      hugeFenceInput.length - 1 := by
    rw [hlen]
  refine ⟨hpos, ?_, ?_⟩
  · unfold ByteStringLit.parse
    rw [if_neg (by rw [show hugeFenceInput.isEmpty = false from rfl]; simp)]
    rw [if_neg (by rintro ⟨-, h2⟩; exact h2 hbr)]
    unfold ByteStringLit.parse_impl
    rw [if_pos hbr, hpos]
    simp only []
    rw [if_neg (not_ne_iff.mpr hq34), htake, hdropA, hrfc]
    simp only []
    rw [if_neg (not_ne_iff.mpr hend32)]
  · intro hcontra
    have h3 := congrArg (List.take 3) hcontra
    rw [show hugeFenceInput.take 3 = [98, 114, 35] from rfl] at h3
    have hrhs3 : ([98, 114] ++ List.replicate 0 35 ++ [34] ++
        (⟨hugeFenceInput, Option.none,
          Option.some 0⟩ : ByteStringLit).valueBytes ++
        [34] ++ List.replicate 0 35).take 3 = [98, 114, 34] := rfl
    rw [hrhs3] at h3
    exact absurd h3 (by decide)
